import Mathlib

/-!
Verification of the cellseg3d-figures repository.

This file gives a shallow embedding, in Lean 4, of the two scripts of the
repository and proves (or refutes) the specified properties about them:

* `src/cellpose_repro/train_on_splits.py`: the volume-to-slice converter
  `convert_2d` and the trailing-fraction train/validation split performed in
  the `__main__` block (`n_val = max(1, int(round(VAL_PERCENT * len(ind))))`,
  `ind_train, ind_val = ind[:-n_val], ind[-n_val:]`).

* `src/plots.py`: the metric sweep evaluator
  `plot_model_performance_semantic`, the matching-statistics plotter
  `plot_performance`, and the styling context `get_style_context`.

Numeric values (array elements, thresholds, fractions, metric scores) are
modelled as rationals; arrays as nested lists; fallible code returns
`Option` or `Except`.  The metric helpers imported from the missing `utils`
module are modelled from the spec and carry a doc comment saying so.
-/

namespace Cellseg3d

/-! ## Split assigner (train_on_splits.py, __main__ block)

The script computes, for `ind = range(len(X_2d))`:

  n_val = max(1, int(round(VAL_PERCENT * len(ind))))
  ind_train, ind_val = ind[:-n_val], ind[-n_val:]

Python `round` on a float uses round-half-to-even; `pyRound` models it on
rationals.  Since `n_val >= 1` always holds, the Python slices `ind[:-n]`
and `ind[-n:]` are `take (len - n)` and `drop (len - n)` with truncated
natural subtraction, which also matches the Python clamping when `n > len`.
-/

/-- Python `round` (round-half-to-even) on a rational, returning an integer.
`int(round(x))` in the script is the identity on the result of `round`. -/
def pyRound (q : ℚ) : ℤ :=
  let fl := ⌊q⌋
  if q - fl < 1/2 then fl
  else if (1 : ℚ)/2 < q - fl then fl + 1
  else if fl % 2 = 0 then fl else fl + 1

/-- `n_val = max(1, int(round(VAL_PERCENT * len(ind))))` with validation
fraction `f` and input length `L`. -/
def n_val (f : ℚ) (L : ℕ) : ℕ :=
  (max 1 (pyRound (f * L))).toNat

/-- `ind_train, ind_val = ind[:-n_val], ind[-n_val:]` on an ordered index
sequence `ind`; first component is the train prefix, second the validation
suffix. -/
def splitAssign (f : ℚ) (ind : List ℕ) : List ℕ × List ℕ :=
  let nv := n_val f ind.length
  (ind.take (ind.length - nv), ind.drop (ind.length - nv))

/-! Basic bounds on `pyRound` and `n_val`. -/

theorem pyRound_le_ceil (q : ℚ) : pyRound q ≤ ⌈q⌉ := by
  have hfc : ⌊q⌋ ≤ ⌈q⌉ := Int.floor_le_ceil q
  simp only [pyRound]
  split
  · exact hfc
  · next h1 =>
    have hlt : (⌊q⌋ : ℚ) < q := by
      have h : (1 : ℚ)/2 ≤ q - ⌊q⌋ := le_of_not_lt h1
      linarith
    have hceil : ⌊q⌋ + 1 ≤ ⌈q⌉ := Int.lt_ceil.mpr hlt
    split
    · exact hceil
    · split
      · exact hfc
      · exact hceil

theorem one_le_n_val (f : ℚ) (L : ℕ) : 1 ≤ n_val f L := by
  unfold n_val
  have h : (1 : ℤ) ≤ max 1 (pyRound (f * L)) := le_max_left _ _
  omega

theorem n_val_le (f : ℚ) (L : ℕ) (hf1 : f ≤ 1) (hL : 1 ≤ L) : n_val f L ≤ L := by
  unfold n_val
  have hq : f * (L : ℚ) ≤ (L : ℚ) := by
    have hL0 : (0 : ℚ) ≤ (L : ℚ) := by positivity
    nlinarith
  have hceil : ⌈f * (L : ℚ)⌉ ≤ (L : ℤ) := by
    calc ⌈f * (L : ℚ)⌉ ≤ ⌈((L : ℤ) : ℚ)⌉ := Int.ceil_le_ceil (by exact_mod_cast hq)
    _ = (L : ℤ) := Int.ceil_intCast _
  have hround : pyRound (f * L) ≤ (L : ℤ) := le_trans (pyRound_le_ceil _) hceil
  have hmax : max 1 (pyRound (f * L)) ≤ (L : ℤ) := by
    have h1L : (1 : ℤ) ≤ (L : ℤ) := by exact_mod_cast hL
    exact max_le h1L hround
  omega

/-- Claim C1: for every ordered index sequence of length `L ≥ 1` and every
fraction `f` in `(0,1]`, the split assigner computes
`n_val = max(1, round(f*L))`, the validation subset is the last `n_val`
elements with length `n_val`, the train subset is the first `L - n_val`
elements with length `L - n_val`, and train concatenated with validation
reproduces the original sequence exactly. -/
theorem split_assigner_correct (ind : List ℕ) (f : ℚ)
    (hL : 1 ≤ ind.length) (hf0 : 0 < f) (hf1 : f ≤ 1) :
    n_val f ind.length = (max 1 (pyRound (f * ind.length))).toNat ∧
    (splitAssign f ind).2.length = n_val f ind.length ∧
    (splitAssign f ind).2 = ind.drop (ind.length - n_val f ind.length) ∧
    (splitAssign f ind).1.length = ind.length - n_val f ind.length ∧
    (splitAssign f ind).1 = ind.take (ind.length - n_val f ind.length) ∧
    (splitAssign f ind).1 ++ (splitAssign f ind).2 = ind := by
  have hle : n_val f ind.length ≤ ind.length := n_val_le f ind.length hf1 hL
  refine ⟨rfl, ?_, rfl, ?_, rfl, ?_⟩
  · simp only [splitAssign, List.length_drop]
    omega
  · simp only [splitAssign, List.length_take]
    omega
  · exact List.take_append_drop _ _

/-- Witness for C1 at `ind = range 10`, `f = 4/5` (the example of the spec:
`n_val = 8`, train has 2 elements, validation has 8). -/
theorem split_assigner_correct_witness :
    (1 ≤ (List.range 10).length ∧ 0 < (4:ℚ)/5 ∧ (4:ℚ)/5 ≤ 1) ∧
    (n_val ((4:ℚ)/5) (List.range 10).length =
        (max 1 (pyRound ((4:ℚ)/5 * (List.range 10).length))).toNat ∧
      (splitAssign ((4:ℚ)/5) (List.range 10)).2.length =
        n_val ((4:ℚ)/5) (List.range 10).length ∧
      (splitAssign ((4:ℚ)/5) (List.range 10)).2 =
        (List.range 10).drop
          ((List.range 10).length - n_val ((4:ℚ)/5) (List.range 10).length) ∧
      (splitAssign ((4:ℚ)/5) (List.range 10)).1.length =
        (List.range 10).length - n_val ((4:ℚ)/5) (List.range 10).length ∧
      (splitAssign ((4:ℚ)/5) (List.range 10)).1 =
        (List.range 10).take
          ((List.range 10).length - n_val ((4:ℚ)/5) (List.range 10).length) ∧
      (splitAssign ((4:ℚ)/5) (List.range 10)).1 ++
          (splitAssign ((4:ℚ)/5) (List.range 10)).2 = List.range 10) :=
  ⟨⟨by simp, by norm_num, by norm_num⟩,
    split_assigner_correct (List.range 10) ((4:ℚ)/5) (by simp) (by norm_num)
      (by norm_num)⟩

/-- Counterexample to claim C5: with `L = 2 > 1` and `f = 4/5` (the script
value `VAL_PERCENT = 0.8`) we get `n_val = round(1.6) = 2`, so the
validation subset equals the full input sequence although `L > 1`. -/
theorem validation_proper_subset_counterexample :
    0 < (4:ℚ)/5 ∧ (4:ℚ)/5 ≤ 1 ∧ 1 < (List.range 2).length ∧
    (splitAssign ((4:ℚ)/5) (List.range 2)).2 = List.range 2 := by
  have hnv : n_val ((4:ℚ)/5) 2 = 2 := by
    have h : pyRound ((4:ℚ)/5 * 2) = 2 := by norm_num [pyRound]
    simp only [n_val, Nat.cast_ofNat, h]
    rfl
  refine ⟨by norm_num, by norm_num, by simp, ?_⟩
  simp [splitAssign, hnv]

/-- Claim C5, amended: for every index sequence of length `L ≥ 1` and
fraction `f` in `(0,1]`, the validation subset is never empty; it equals
the full input sequence exactly when `n_val = L`, which can happen with
`L > 1` (for example `L = 2`, `f = 4/5`). -/
theorem validation_nonempty_full_iff (ind : List ℕ) (f : ℚ)
    (hL : 1 ≤ ind.length) (hf0 : 0 < f) (hf1 : f ≤ 1) :
    (splitAssign f ind).2 ≠ [] ∧
    ((splitAssign f ind).2 = ind ↔ n_val f ind.length = ind.length) := by
  have h1 := one_le_n_val f ind.length
  have hle : n_val f ind.length ≤ ind.length := n_val_le f ind.length hf1 hL
  constructor
  · intro hnil
    have hlen := congrArg List.length hnil
    simp only [splitAssign, List.length_drop, List.length_nil] at hlen
    omega
  · constructor
    · intro hfull
      have hlen := congrArg List.length hfull
      simp only [splitAssign, List.length_drop] at hlen
      omega
    · intro hnv
      have h0 : ind.length - n_val f ind.length = 0 := by omega
      simp only [splitAssign, h0, List.drop_zero]

/-- Witness for the amended C5 at `ind = range 2`, `f = 4/5`. -/
theorem validation_nonempty_full_iff_witness :
    (splitAssign ((4:ℚ)/5) (List.range 2)).2 ≠ [] ∧
    ((splitAssign ((4:ℚ)/5) (List.range 2)).2 = List.range 2 ↔
      n_val ((4:ℚ)/5) (List.range 2).length = (List.range 2).length) :=
  validation_nonempty_full_iff (List.range 2) ((4:ℚ)/5) (by simp) (by norm_num)
    (by norm_num)

/-! ## Volume-to-slice converter (train_on_splits.py, convert_2d)

    def convert_2d(images_array, images_names=None, dtype=np.float32):
        images_2d = []
        images_names_2d = [] if images_names is not None else None
        for i, image in enumerate(images_array):
            for j, slice_ in enumerate(image):
                images_2d.append(slice_.astype(dtype))
                if images_names is not None:
                    images_names_2d.append(
                        f"..._{j}.tif"  (stem of images_names[i], then _j.tif)
                    )
        return images_2d, images_names_2d

An out-of-range access `images_names[i]` raises `IndexError` and nothing is
returned; the embedding returns `none` in that case.  A volume with zero
slices never evaluates `images_names[i]`.
-/

/-- A 2-D slice: a rectangular array of numeric values. -/
abbrev Slice := List (List ℚ)

/-- A 3-D volume: axis 0 (the outer list) is the slice axis. -/
abbrev Volume := List Slice

/-- `slice_.astype(dtype)`: element-wise cast of a 2-D slice.  The numeric
conversion performed by the target dtype is modelled as an arbitrary map on
values. -/
def astype (cast : ℚ → ℚ) (s : Slice) : Slice :=
  s.map (List.map cast)

/-- Split a character list on a separator character; used to model the
path-component and suffix handling of `pathlib.Path(...).stem`. -/
def splitOnChar (c : Char) : List Char → List (List Char)
  | [] => [[]]
  | x :: xs =>
    let r := splitOnChar c xs
    if x = c then [] :: r else (x :: r.headD []) :: r.tail

/-- `pathlib.Path(p).stem`: the final path component without its last
suffix.  CPython takes `i` as the position of the last dot of the final
component and keeps the part before `i` when `0 < i < len - 1`, otherwise
the whole component; `k` below is the position of that dot counted from the
end. -/
def pathStem (p : String) : String :=
  let name := (splitOnChar '/' p.data).getLastD []
  let rev := name.reverse
  match rev.findIdx? (fun c => c = '.') with
  | none => ⟨name⟩
  | some k =>
      if 0 < k ∧ k < name.length - 1 then ⟨(rev.drop (k + 1)).reverse⟩
      else ⟨name⟩

/-- The derived per-slice identifier appended by the converter for volume
index `i` and slice index `j`: the f-string producing
`stem of images_names[i], then an underscore, then j, then .tif`. -/
def sliceName (name : String) (j : ℕ) : String :=
  pathStem name ++ "_" ++ toString j ++ ".tif"

/-- The named branch of `convert_2d`: walks the volumes from volume index
`i`, appending the cast slices and the derived identifiers; `none` models
the `IndexError` raised when `images_names[i]` is out of range. -/
def convertNamedGo (cast : ℚ → ℚ) (names : List String) :
    ℕ → List Volume → Option (List Slice × List String)
  | _, [] => some ([], [])
  | i, v :: vs =>
    if v.isEmpty then convertNamedGo cast names (i + 1) vs
    else
      match names[i]? with
      | none => none
      | some nm =>
        match convertNamedGo cast names (i + 1) vs with
        | none => none
        | some (ss, ns) =>
          some (v.map (astype cast) ++ ss,
            (List.range v.length).map (fun j => sliceName nm j) ++ ns)

/-- `convert_2d(images_array, images_names, dtype)`: returns the flat list
of cast 2-D slices and, when identifiers were given, the parallel list of
derived per-slice identifiers. -/
def convert_2d (images_array : List Volume) (images_names : Option (List String))
    (cast : ℚ → ℚ) : Option (List Slice × Option (List String)) :=
  match images_names with
  | none => some (images_array.flatMap (fun v => v.map (astype cast)), none)
  | some names =>
      (convertNamedGo cast names 0 images_array).map (fun r => (r.1, some r.2))

/-- The provenance of the flattened output: the (volume index, slice index)
pair each output position comes from, in the iteration order of
`convert_2d` starting at volume index `i`. -/
def provenanceGo : ℕ → List Volume → List (ℕ × ℕ)
  | _, [] => []
  | i, v :: vs =>
    (List.range v.length).map (fun j => (i, j)) ++ provenanceGo (i + 1) vs

/-- Provenance of the whole conversion (volume indices start at 0). -/
def provenance (images : List Volume) : List (ℕ × ℕ) :=
  provenanceGo 0 images

theorem map_length_comp_astype (c : ℚ → ℚ) (l : List Volume) :
    l.map (List.length ∘ fun v => v.map (astype c)) = l.map List.length := by
  simp [Function.comp]

theorem provenanceGo_length (images : List Volume) :
    ∀ i, (provenanceGo i images).length = (images.map List.length).sum := by
  induction images with
  | nil => intro i; simp [provenanceGo]
  | cons v vs ih =>
      intro i
      simp [provenanceGo, ih (i + 1)]

theorem provenanceGo_congr :
    ∀ (Xs Ys : List Volume) (i : ℕ), Xs.length = Ys.length →
      (∀ k, k < Xs.length → (Xs.getD k []).length = (Ys.getD k []).length) →
      provenanceGo i Xs = provenanceGo i Ys := by
  intro Xs
  induction Xs with
  | nil =>
      intro Ys i hlen _
      cases Ys with
      | nil => rfl
      | cons w ws => simp at hlen
  | cons v vs ih =>
      intro Ys i hlen hsl
      cases Ys with
      | nil => simp at hlen
      | cons w ws =>
          have hhead : v.length = w.length := by
            have := hsl 0 (by simp)
            simpa using this
          have htail : provenanceGo (i + 1) vs = provenanceGo (i + 1) ws := by
            refine ih ws (i + 1) (by simpa using hlen) ?_
            intro k hk
            have := hsl (k + 1) (by simpa using Nat.succ_lt_succ hk)
            simpa using this
          simp [provenanceGo, hhead, htail]

theorem convertNamedGo_eq (cast : ℚ → ℚ) (names : List String) :
    ∀ (images : List Volume) (i : ℕ), i + images.length ≤ names.length →
      convertNamedGo cast names i images =
        some (images.flatMap (fun v => v.map (astype cast)),
          (provenanceGo i images).map
            (fun p => sliceName (names.getD p.1 "") p.2)) := by
  intro images
  induction images with
  | nil => intro i _; simp [convertNamedGo, provenanceGo]
  | cons v vs ih =>
      intro i hlen
      have hi : i < names.length := by simp at hlen; omega
      have hrec := ih (i + 1) (by simp at hlen ⊢; omega)
      by_cases hv : v.isEmpty
      · have hv' : v = [] := List.isEmpty_iff.mp hv
        subst hv'
        simp [convertNamedGo, provenanceGo, hrec]
      · have hget : names[i]? = some (names.getD i "") := by
          rw [List.getElem?_eq_getElem hi]
          exact congrArg some (List.getD_eq_getElem names "" hi).symm
        simp only [convertNamedGo, hv, Bool.false_eq_true, if_false, hget, hrec]
        simp [provenanceGo, List.map_map, Function.comp]

theorem convertNamedGo_lengths (cast : ℚ → ℚ) (names : List String) :
    ∀ (images : List Volume) (i : ℕ) (ss : List Slice) (ns : List String),
      convertNamedGo cast names i images = some (ss, ns) →
      ns.length = ss.length := by
  intro images
  induction images with
  | nil =>
      intro i ss ns h
      simp only [convertNamedGo, Option.some.injEq, Prod.mk.injEq] at h
      obtain ⟨h1, h2⟩ := h
      subst h1
      subst h2
      rfl
  | cons v vs ih =>
      intro i ss ns h
      by_cases hv : v.isEmpty
      · rw [convertNamedGo, if_pos hv] at h
        exact ih (i + 1) ss ns h
      · rw [convertNamedGo, if_neg hv] at h
        cases hnm : names[i]? with
        | none => rw [hnm] at h; exact absurd h (by simp)
        | some nm =>
            rw [hnm] at h
            cases hrec : convertNamedGo cast names (i + 1) vs with
            | none => rw [hrec] at h; exact absurd h (by simp)
            | some r =>
                rw [hrec] at h
                have hss : v.map (astype cast) ++ r.1 = ss := by
                  have := congrArg Prod.fst (Option.some.inj h)
                  simpa using this
                have hns : (List.range v.length).map (fun j => sliceName nm j)
                    ++ r.2 = ns := by
                  have := congrArg Prod.snd (Option.some.inj h)
                  simpa using this
                have hr := ih (i + 1) r.1 r.2 (by rw [hrec])
                rw [← hss, ← hns]
                simp [hr]

/-- Claim C3: converting a single volume `V` with slice-axis length `n`
yields exactly `n` 2-D arrays, where the i-th output equals `V[i]` cast
element-wise to the target type, in slice-index order. -/
theorem convert_single_volume (V : Volume) (cast : ℚ → ℚ) :
    ∃ out, convert_2d [V] none cast = some (out, none) ∧
      out.length = V.length ∧
      ∀ i, i < V.length → out.getD i [] = astype cast (V.getD i []) := by
  refine ⟨V.map (astype cast), by simp [convert_2d], by simp, ?_⟩
  intro i hi
  rw [List.getD_eq_getElem?_getD, List.getElem?_map,
    List.getElem?_eq_getElem hi, List.getD_eq_getElem V [] hi]
  rfl

/-- Witness for C3 at a one-slice volume and the identity cast. -/
theorem convert_single_volume_witness :
    ∃ out, convert_2d [[[[5]]]] none (fun x => x) = some (out, none) ∧
      out.length = ([[[5]]] : Volume).length ∧
      ∀ i, i < ([[[5]]] : Volume).length →
        out.getD i [] = astype (fun x => x) (([[[5]]] : Volume).getD i []) :=
  convert_single_volume [[[5]]] (fun x => x)

/-- Claim C4: for paired image/label volume sequences with equal volume
count and, volume-for-volume, equal slice-axis lengths, converting both
produces 2-D sequences of equal length whose derived identifiers are
aligned index-for-index: the k-th image slice and the k-th label slice come
from the same volume index and the same slice index. -/
theorem paired_conversion_aligned (Xs Ys : List Volume) (Xn Yn : List String)
    (c1 c2 : ℚ → ℚ)
    (hlen : Xs.length = Ys.length)
    (hslices : ∀ k, k < Xs.length → (Xs.getD k []).length = (Ys.getD k []).length)
    (hXn : Xs.length ≤ Xn.length) (hYn : Ys.length ≤ Yn.length) :
    ∃ xss xns yss yns,
      convert_2d Xs (some Xn) c1 = some (xss, some xns) ∧
      convert_2d Ys (some Yn) c2 = some (yss, some yns) ∧
      xss.length = yss.length ∧ xns.length = xss.length ∧
      yns.length = yss.length ∧
      ∀ k, k < xns.length → ∃ i j,
        (provenance Xs)[k]? = some (i, j) ∧
        (provenance Ys)[k]? = some (i, j) ∧
        xns[k]? = some (sliceName (Xn.getD i "") j) ∧
        yns[k]? = some (sliceName (Yn.getD i "") j) := by
  have hXeq := convertNamedGo_eq c1 Xn Xs 0 (by omega)
  have hYeq := convertNamedGo_eq c2 Yn Ys 0 (by omega)
  have hprov : provenanceGo 0 Xs = provenanceGo 0 Ys :=
    provenanceGo_congr Xs Ys 0 hlen hslices
  refine ⟨Xs.flatMap (fun v => v.map (astype c1)),
    (provenanceGo 0 Xs).map (fun p => sliceName (Xn.getD p.1 "") p.2),
    Ys.flatMap (fun v => v.map (astype c2)),
    (provenanceGo 0 Ys).map (fun p => sliceName (Yn.getD p.1 "") p.2),
    ?_, ?_, ?_, ?_, ?_, ?_⟩
  · simp [convert_2d, hXeq]
  · simp [convert_2d, hYeq]
  · have hsums : (Xs.map List.length).sum = (Ys.map List.length).sum := by
      rw [← provenanceGo_length Xs 0, ← provenanceGo_length Ys 0, hprov]
    rw [List.length_flatMap, List.length_flatMap,
      map_length_comp_astype c1, map_length_comp_astype c2, hsums]
  · rw [List.length_map, provenanceGo_length Xs 0, List.length_flatMap,
      map_length_comp_astype c1]
  · rw [List.length_map, provenanceGo_length Ys 0, List.length_flatMap,
      map_length_comp_astype c2]
  · intro k hk
    rw [List.length_map] at hk
    obtain ⟨p, hp⟩ : ∃ p, (provenanceGo 0 Xs)[k]? = some p :=
      ⟨(provenanceGo 0 Xs)[k], List.getElem?_eq_getElem hk⟩
    refine ⟨p.1, p.2, ?_, ?_, ?_, ?_⟩
    · simpa [provenance] using hp
    · rw [provenance, ← hprov]
      simpa using hp
    · rw [List.getElem?_map, hp]
      rfl
    · rw [← hprov, List.getElem?_map, hp]
      rfl

/-- Witness for C4 on one-volume, one-slice paired inputs. -/
theorem paired_conversion_aligned_witness :
    ∃ xss xns yss yns,
      convert_2d [[[[1]]]] (some ["x.tif"]) (fun x => x) = some (xss, some xns) ∧
      convert_2d [[[[2]]]] (some ["labels/x.tif"]) (fun x => x) =
        some (yss, some yns) ∧
      xss.length = yss.length ∧ xns.length = xss.length ∧
      yns.length = yss.length ∧
      ∀ k, k < xns.length → ∃ i j,
        (provenance [[[[1]]]])[k]? = some (i, j) ∧
        (provenance [[[[2]]]])[k]? = some (i, j) ∧
        xns[k]? = some (sliceName (["x.tif"].getD i "") j) ∧
        yns[k]? = some (sliceName (["labels/x.tif"].getD i "") j) :=
  paired_conversion_aligned [[[[1]]]] [[[[2]]]] ["x.tif"] ["labels/x.tif"]
    (fun x => x) (fun x => x) (by simp) (by decide) (by simp) (by simp)

/-- Counterexample to claim C6: for the source identifier `a.tif` and slice
index 0 the converter produces the identifier `a_0.tif`, which is not the
claimed exact form `stem_j` (that would be `a_0`): the code appends a
`.tif` suffix. -/
theorem slice_identifier_form_counterexample :
    convert_2d [[[[1]]]] (some ["a.tif"]) (fun x => x) =
      some ([[[1]]], some ["a_0.tif"]) ∧
    "a_0.tif" ≠ pathStem "a.tif" ++ "_" ++ toString 0 := by
  constructor
  · rfl
  · decide

/-- Claim C6, amended: each per-slice identifier produced by the converter
has exactly the form `stem_j.tif`, where the stem is the base name of the
corresponding source identifier, `j` the slice index within its volume,
and `.tif` a fixed suffix appended by the code. -/
theorem slice_identifier_form (images : List Volume) (names : List String)
    (cast : ℚ → ℚ) (h : images.length ≤ names.length) :
    ∃ ss ns, convert_2d images (some names) cast = some (ss, some ns) ∧
      ns.length = ss.length ∧
      ∀ k, k < ns.length → ∃ i j,
        (provenance images)[k]? = some (i, j) ∧
        ns[k]? = some (pathStem (names.getD i "") ++ "_" ++ toString j ++ ".tif") := by
  have heq := convertNamedGo_eq cast names images 0 (by omega)
  refine ⟨images.flatMap (fun v => v.map (astype cast)),
    (provenanceGo 0 images).map (fun p => sliceName (names.getD p.1 "") p.2),
    by simp [convert_2d, heq], ?_, ?_⟩
  · rw [List.length_map, provenanceGo_length images 0, List.length_flatMap,
      map_length_comp_astype cast]
  · intro k hk
    rw [List.length_map] at hk
    obtain ⟨p, hp⟩ : ∃ p, (provenanceGo 0 images)[k]? = some p :=
      ⟨(provenanceGo 0 images)[k], List.getElem?_eq_getElem hk⟩
    refine ⟨p.1, p.2, by simpa [provenance] using hp, ?_⟩
    rw [List.getElem?_map, hp]
    rfl

/-- Witness for the amended C6 at one volume with one slice. -/
theorem slice_identifier_form_witness :
    ∃ ss ns, convert_2d [[[[1]]]] (some ["a.tif"]) (fun x => x) =
        some (ss, some ns) ∧
      ns.length = ss.length ∧
      ∀ k, k < ns.length → ∃ i j,
        (provenance [[[[1]]]])[k]? = some (i, j) ∧
        ns[k]? = some (pathStem (["a.tif"].getD i "") ++ "_" ++ toString j ++ ".tif") :=
  slice_identifier_form [[[[1]]]] ["a.tif"] (fun x => x) (by simp)

/-- Claim C10: the names component returned by `convert_2d` is `none` iff
no identifier sequence was given; when identifiers are given, the returned
names list has exactly the same length as the returned 2-D image list,
whatever the per-volume slice counts are. -/
theorem names_component_alignment (images : List Volume)
    (names? : Option (List String)) (cast : ℚ → ℚ) (ss : List Slice)
    (ns? : Option (List String))
    (h : convert_2d images names? cast = some (ss, ns?)) :
    (ns? = none ↔ names? = none) ∧
    ∀ ns, ns? = some ns → ns.length = ss.length := by
  cases names? with
  | none =>
      simp only [convert_2d, Option.some.injEq, Prod.mk.injEq] at h
      refine ⟨by simp [← h.2], ?_⟩
      intro ns hns
      rw [← h.2] at hns
      cases hns
  | some names =>
      simp only [convert_2d, Option.map_eq_some'] at h
      obtain ⟨r, hr, heq⟩ := h
      cases heq
      refine ⟨by simp, ?_⟩
      intro ns hns
      cases hns
      exact convertNamedGo_lengths cast names images 0 r.1 r.2 (by simpa using hr)

/-- Witness for C10 on a two-volume input with unequal slice counts. -/
theorem names_component_alignment_witness :
    (some ["b_0.tif", "c_0.tif", "c_1.tif"] = (none : Option (List String)) ↔
      some ["b.tif", "c.tif"] = (none : Option (List String))) ∧
    ∀ ns, some ["b_0.tif", "c_0.tif", "c_1.tif"] = some ns →
      ns.length = ([[[1]], [[2]], [[3]]] : List Slice).length :=
  names_component_alignment [[[[1]]], [[[2]], [[3]]]] (some ["b.tif", "c.tif"])
    (fun x => x) [[[1]], [[2]], [[3]]] (some ["b_0.tif", "c_0.tif", "c_1.tif"])
    (by rfl)

/-! ## Plot styling (plots.py: COLORMAP, get_style_context, plot_performance)

    COLORMAP_DARK = [invert_color(color) for color in COLORMAP_LIGHT]
    DARK_MODE = False
    COLORMAP = COLORMAP_DARK if DARK_MODE else COLORMAP_LIGHT

    def get_style_context():
        sns.set_palette(COLORMAP)
        if DARK_MODE:
            return plt.style.context("dark_background")
        return contextlib.nullcontext()

and `plot_performance` (as well as `plot_stat_comparison`) runs

    with get_style_context():
        sns.set_palette(COLORMAP)
        ...external rendering...

`sns.set_palette` mutates a module-wide global of the plotting library;
`plt.style.context` snapshots the style globals on entry and restores the
snapshot on exit; `contextlib.nullcontext()` does nothing.  The module
constant `DARK_MODE` is kept as a parameter `dm` so that both settings of
the constant are covered.
-/

/-- Hex digit value of a character (0 for non-hex characters). -/
def hexVal (c : Char) : ℕ :=
  if '0' ≤ c ∧ c ≤ '9' then c.toNat - '0'.toNat
  else if 'a' ≤ c ∧ c ≤ 'f' then c.toNat - 'a'.toNat + 10
  else if 'A' ≤ c ∧ c ≤ 'F' then c.toNat - 'A'.toNat + 10
  else 0

/-- Hex digit character for a value below 16. -/
def hexDigit (n : ℕ) : Char :=
  if n < 10 then Char.ofNat ('0'.toNat + n) else Char.ofNat ('A'.toNat + n - 10)

/-- Modelled from the spec: `invert_color` from the missing `utils` module
maps a hex color to its dark-mode inverse (the spec only says that
`COLORMAP_DARK` holds the inverted light colors); modelled as the RGB
complement, one hex digit at a time.  No claim depends on its exact
values. -/
def invert_color (c : String) : String :=
  match c.data with
  | '#' :: rest => ⟨'#' :: rest.map (fun d => hexDigit (15 - hexVal d))⟩
  | _ => c

/-- The light color palette constant of plots.py. -/
def COLORMAP_LIGHT : List String :=
  ["#F72585", "#7209B7", "#4361EE", "#4CC9F0", "#3A0CA3",
   "#FF0000", "#F0A500", "#FFD700", "#FF7A00", "#FF4D00"]

/-- `COLORMAP_DARK = [invert_color(color) for color in COLORMAP_LIGHT]`. -/
def COLORMAP_DARK : List String := COLORMAP_LIGHT.map invert_color

/-- The module constant `DARK_MODE = False` of plots.py. -/
def DARK_MODE : Bool := false

/-- `COLORMAP = COLORMAP_DARK if DARK_MODE else COLORMAP_LIGHT` for a given
setting `dm` of the `DARK_MODE` constant. -/
def colormapFor (dm : Bool) : List String :=
  if dm then COLORMAP_DARK else COLORMAP_LIGHT

/-- The styling globals of the plotting library touched by the script: the
seaborn color palette and the dark-background style flag. -/
structure PltState where
  palette : List String
  darkBackground : Bool
deriving DecidableEq

/-- `sns.set_palette(...)`: a global mutation of the palette. -/
def set_palette (pal : List String) (s : PltState) : PltState :=
  { s with palette := pal }

/-- The styling-state effect of one `plot_performance` call when the module
constant `DARK_MODE` is `dm`: `get_style_context()` runs
`sns.set_palette(COLORMAP)` and returns the conditional context; entering
the dark-background context snapshots the style state and sets the dark
background, the body runs `sns.set_palette(COLORMAP)` again, and exiting
restores the snapshot (the null context restores nothing). -/
def plot_performance_style (dm : Bool) (s : PltState) : PltState :=
  let afterGet := set_palette (colormapFor dm) s
  let snapshot := afterGet
  let entered :=
    if dm then { afterGet with darkBackground := true } else afterGet
  let afterBody := set_palette (colormapFor dm) entered
  if dm then snapshot else afterBody

/-- Counterexample to claim C9: starting from an empty palette, a
`plot_performance` call leaves the seaborn palette set to `COLORMAP`
after it returns; the palette global is not restored to its previous
value. -/
theorem style_restored_counterexample :
    (plot_performance_style DARK_MODE { palette := [], darkBackground := false }).palette ≠
      ({ palette := [], darkBackground := false } : PltState).palette := by
  simp [plot_performance_style, set_palette, DARK_MODE, colormapFor, COLORMAP_LIGHT]

/-- Claim C9, amended: for each plot call, the dark-background style toggle
is scoped to the call and restored on exit, but the color palette is a
global mutation that persists after the call ends (it is left equal to
`COLORMAP`, whatever it was before). -/
theorem style_dark_scoped_palette_global (dm : Bool) (s : PltState) :
    (plot_performance_style dm s).darkBackground = s.darkBackground ∧
    (plot_performance_style dm s).palette = colormapFor dm := by
  cases dm <;> simp [plot_performance_style, set_palette]

/-! ## Metric sweep evaluator (plots.py, plot_model_performance_semantic)

    for threshold in threshold_range:
        pred = np.where(image > threshold, 1, 0)
        dice_scores.append(dice_coeff(gt, pred))
        iou_scores.append(intersection_over_union(gt, pred))
        precision_scores.append(precision(gt, pred))
        recall_scores.append(recall(gt, pred))
    ...
    optimal_threshold = threshold_range[np.argmax(dice_scores)]

The scalar metric helpers come from the missing `utils` module and are
modelled from the spec.  `np.argmax` returns the first index of the
maximum and raises `ValueError` on an empty sequence (modelled by
`none`). -/

/-- A 2-D map of values (continuous prediction or binary ground truth). -/
abbrev PixelMap := List (List ℚ)

/-- Sum of all entries of a 2-D map. -/
def arraySum (a : PixelMap) : ℚ := (a.map List.sum).sum

/-- Element-wise product of two 2-D maps; for binary masks its sum is the
overlap `|A ∩ B|`. -/
def arrayMul (a b : PixelMap) : PixelMap :=
  List.zipWith (List.zipWith (· * ·)) a b

/-- Modelled from the spec: `utils.dice_coeff`, the Dice coefficient
`2 x overlap / (|A| + |B|)` between two binary masks. -/
def dice_coeff (gt pred : PixelMap) : ℚ :=
  2 * arraySum (arrayMul gt pred) / (arraySum gt + arraySum pred)

/-- Modelled from the spec: `utils.intersection_over_union`,
`|A inter B| / |A union B|` between two binary masks. -/
def intersection_over_union (gt pred : PixelMap) : ℚ :=
  arraySum (arrayMul gt pred) /
    (arraySum gt + arraySum pred - arraySum (arrayMul gt pred))

/-- Modelled from the spec: `utils.precision`, the per-pixel precision
`TP / (TP + FP)` of a binary prediction against a binary ground truth. -/
def precision (gt pred : PixelMap) : ℚ :=
  arraySum (arrayMul gt pred) / arraySum pred

/-- Modelled from the spec: `utils.recall`, the per-pixel recall
`TP / (TP + FN)`. -/
def «recall» (gt pred : PixelMap) : ℚ :=
  arraySum (arrayMul gt pred) / arraySum gt

/-- `np.where(image > threshold, 1, 0)`: binarize a prediction map. -/
def npWhereGt (image : PixelMap) (t : ℚ) : PixelMap :=
  image.map (fun row => row.map (fun x => if t < x then 1 else 0))

/-- Accumulator loop of `np.argmax`: scans with the running maximum value
`b` found first at index `bi`, the next index being `i`; only a strictly
greater value updates the running maximum, so the first index of the
maximum is kept. -/
def argmaxGo : ℚ → ℕ → ℕ → List ℚ → ℕ
  | _, bi, _, [] => bi
  | b, bi, i, x :: xs =>
    if b < x then argmaxGo x i (i + 1) xs else argmaxGo b bi (i + 1) xs

/-- `np.argmax`: first index of the maximum value of a sequence; `none`
models the `ValueError` raised on an empty sequence. -/
def npArgmax : List ℚ → Option ℕ
  | [] => none
  | x :: xs => some (argmaxGo x 0 1 xs)

/-- The result of `plot_model_performance_semantic`: the four per-threshold
score lists it returns, together with the optimal threshold it marks on
the plot and reports. -/
structure SweepResult where
  dice_scores : List ℚ
  iou_scores : List ℚ
  precision_scores : List ℚ
  recall_scores : List ℚ
  optimal_threshold : ℚ
deriving DecidableEq

/-- `plot_model_performance_semantic(image, gt, name, threshold_range)`:
computes the four score lists over the threshold range and the optimal
threshold `threshold_range[np.argmax(dice_scores)]`; `none` models the
`ValueError` raised by `np.argmax` on an empty threshold range.  The
rendering side effects have no bearing on the computed values. -/
def plot_model_performance_semantic (image gt : PixelMap)
    (threshold_range : List ℚ) : Option SweepResult :=
  let dice_scores :=
    threshold_range.map (fun t => dice_coeff gt (npWhereGt image t))
  let iou_scores :=
    threshold_range.map (fun t => intersection_over_union gt (npWhereGt image t))
  let precision_scores :=
    threshold_range.map (fun t => precision gt (npWhereGt image t))
  let recall_scores :=
    threshold_range.map (fun t => «recall» gt (npWhereGt image t))
  match npArgmax dice_scores with
  | none => none
  | some k =>
      some ⟨dice_scores, iou_scores, precision_scores, recall_scores,
        threshold_range.getD k 0⟩

theorem argmaxGo_spec (xs : List ℚ) :
    ∀ (b : ℚ) (bi i : ℕ),
      (argmaxGo b bi i xs = bi ∧ ∀ j, j < xs.length → xs.getD j 0 ≤ b) ∨
      (∃ j, j < xs.length ∧ argmaxGo b bi i xs = i + j ∧ b < xs.getD j 0 ∧
        (∀ p, p < xs.length → xs.getD p 0 ≤ xs.getD j 0) ∧
        (∀ p, p < j → xs.getD p 0 < xs.getD j 0)) := by
  induction xs with
  | nil =>
      intro b bi i
      left
      exact ⟨rfl, by simp⟩
  | cons x t ih =>
      intro b bi i
      by_cases hbx : b < x
      · rw [argmaxGo, if_pos hbx]
        rcases ih x i (i + 1) with ⟨heq, hmax⟩ | ⟨j, hj, heq, hlt, hmax, hfirst⟩
        · right
          refine ⟨0, by simp, by simpa using heq, by simpa using hbx, ?_, by simp⟩
          intro p hp
          cases p with
          | zero => simp
          | succ q =>
              simp only [List.getD_cons_succ, List.getD_cons_zero]
              exact hmax q (by simpa using hp)
        · right
          refine ⟨j + 1, by simpa using hj, ?_, ?_, ?_, ?_⟩
          · rw [heq]; omega
          · simpa using lt_trans hbx hlt
          · intro p hp
            cases p with
            | zero => simpa using le_of_lt hlt
            | succ q =>
                simp only [List.getD_cons_succ]
                exact hmax q (by simpa using hp)
          · intro p hp
            cases p with
            | zero => simpa using hlt
            | succ q =>
                simp only [List.getD_cons_succ]
                exact hfirst q (by omega)
      · rw [argmaxGo, if_neg hbx]
        have hxb : x ≤ b := le_of_not_lt hbx
        rcases ih b bi (i + 1) with ⟨heq, hmax⟩ | ⟨j, hj, heq, hlt, hmax, hfirst⟩
        · left
          refine ⟨heq, ?_⟩
          intro p hp
          cases p with
          | zero => simpa using hxb
          | succ q =>
              simp only [List.getD_cons_succ]
              exact hmax q (by simpa using hp)
        · right
          refine ⟨j + 1, by simpa using hj, ?_, ?_, ?_, ?_⟩
          · rw [heq]; omega
          · simpa using hlt
          · intro p hp
            cases p with
            | zero => simpa using le_of_lt (lt_of_le_of_lt hxb hlt)
            | succ q =>
                simp only [List.getD_cons_succ]
                exact hmax q (by simpa using hp)
          · intro p hp
            cases p with
            | zero => simpa using lt_of_le_of_lt hxb hlt
            | succ q =>
                simp only [List.getD_cons_succ]
                exact hfirst q (by omega)

theorem npArgmax_spec (l : List ℚ) (h : l ≠ []) :
    ∃ k, npArgmax l = some k ∧ k < l.length ∧
      (∀ j, j < l.length → l.getD j 0 ≤ l.getD k 0) ∧
      (∀ j, j < k → l.getD j 0 < l.getD k 0) := by
  cases l with
  | nil => exact absurd rfl h
  | cons x t =>
      rcases argmaxGo_spec t x 0 1 with ⟨heq, hmax⟩ | ⟨j, hj, heq, hlt, hmax, hfirst⟩
      · refine ⟨0, by simp [npArgmax, heq], by simp, ?_, by simp⟩
        intro p hp
        cases p with
        | zero => simp
        | succ q =>
            simp only [List.getD_cons_succ, List.getD_cons_zero]
            exact hmax q (by simpa using hp)
      · refine ⟨j + 1, by simp [npArgmax, heq, Nat.add_comm],
          by simpa using hj, ?_, ?_⟩
        · intro p hp
          cases p with
          | zero => simpa using le_of_lt hlt
          | succ q =>
              simp only [List.getD_cons_succ]
              exact hmax q (by simpa using hp)
        · intro p hp
          cases p with
          | zero => simpa using hlt
          | succ q =>
              simp only [List.getD_cons_succ]
              exact hfirst q (by omega)

/-- Claim C2: for every nonempty threshold sequence, the optimal threshold
selected by the sweep evaluator (marked on the plot and reported) is the
threshold at an index whose Dice score equals the maximum Dice score over
the sweep, and on ties it is the one at the lowest index in sweep order. -/
theorem optimal_threshold_is_first_max_dice (image gt : PixelMap)
    (ts : List ℚ) (h : ts ≠ []) :
    ∃ r k, plot_model_performance_semantic image gt ts = some r ∧
      k < ts.length ∧
      r.dice_scores = ts.map (fun t => dice_coeff gt (npWhereGt image t)) ∧
      r.optimal_threshold = ts.getD k 0 ∧
      (∀ j, j < r.dice_scores.length →
        r.dice_scores.getD j 0 ≤ r.dice_scores.getD k 0) ∧
      (∀ j, j < k → r.dice_scores.getD j 0 < r.dice_scores.getD k 0) := by
  have hne : ts.map (fun t => dice_coeff gt (npWhereGt image t)) ≠ [] := by
    intro hc
    exact h (List.map_eq_nil_iff.mp hc)
  obtain ⟨k, hk, hklen, hmax, hfirst⟩ :=
    npArgmax_spec (ts.map (fun t => dice_coeff gt (npWhereGt image t))) hne
  refine ⟨⟨ts.map (fun t => dice_coeff gt (npWhereGt image t)),
      ts.map (fun t => intersection_over_union gt (npWhereGt image t)),
      ts.map (fun t => precision gt (npWhereGt image t)),
      ts.map (fun t => «recall» gt (npWhereGt image t)),
      ts.getD k 0⟩, k, ?_, ?_, rfl, rfl, hmax, hfirst⟩
  · simp only [plot_model_performance_semantic, hk]
  · simpa using hklen

/-- Witness for C2 at `image = gt = [[1]]`, thresholds `[0, 1/2]`. -/
theorem optimal_threshold_is_first_max_dice_witness :
    ∃ r k, plot_model_performance_semantic [[1]] [[1]] [0, 1/2] = some r ∧
      k < ([0, 1/2] : List ℚ).length ∧
      r.dice_scores =
        ([0, 1/2] : List ℚ).map (fun t => dice_coeff [[1]] (npWhereGt [[1]] t)) ∧
      r.optimal_threshold = ([0, 1/2] : List ℚ).getD k 0 ∧
      (∀ j, j < r.dice_scores.length →
        r.dice_scores.getD j 0 ≤ r.dice_scores.getD k 0) ∧
      (∀ j, j < k → r.dice_scores.getD j 0 < r.dice_scores.getD k 0) :=
  optimal_threshold_is_first_max_dice [[1]] [[1]] [0, 1/2] (by simp)

/-! ## Matching-statistics plotter (plots.py, plot_performance)

`plot_performance(taus, stats, name, metric, stats_list)` converts the
record collection to tabular form and overlays, against the `thresh`
column, each named statistic of `stats_list` on the left panel and the raw
counts `fp, tp, fn` on the right panel.  Its `taus` argument is never
used by the body.  All other work (axes, spines, legends, despine) is
styling on the external plotting library with no data dependence. -/

/-- One aggregate matching-statistics record per (model, threshold) pair:
named scalar fields, as described by the spec data model. -/
structure MatchingStats where
  thresh : ℚ
  precision : ℚ
  «recall» : ℚ
  accuracy : ℚ
  f1 : ℚ
  mean_true_score : ℚ
  mean_matched_score : ℚ
  panoptic_quality : ℚ
  fp : ℚ
  tp : ℚ
  fn : ℚ
deriving DecidableEq

/-- Modelled from the spec: `utils.dataset_matching_stats_to_df` converts
the structured collection of per-threshold aggregate records to tabular
form — one named column per scalar field (external collaborator
responsibility per the spec). -/
def dataset_matching_stats_to_df (stats : List MatchingStats) :
    List (String × List ℚ) :=
  [("thresh", stats.map (fun r => r.thresh)),
   ("precision", stats.map (fun r => r.precision)),
   ("recall", stats.map (fun r => r.«recall»)),
   ("accuracy", stats.map (fun r => r.accuracy)),
   ("f1", stats.map (fun r => r.f1)),
   ("mean_true_score", stats.map (fun r => r.mean_true_score)),
   ("mean_matched_score", stats.map (fun r => r.mean_matched_score)),
   ("panoptic_quality", stats.map (fun r => r.panoptic_quality)),
   ("fp", stats.map (fun r => r.fp)),
   ("tp", stats.map (fun r => r.tp)),
   ("fn", stats.map (fun r => r.fn))]

/-- Modelled from the spec: `sns.lineplot(data=df, x=..., y=...)` renders
one curve from two named columns of the tabular data; it fails (a key
error) when a named column is missing and completes otherwise.  The
rendering itself is an external side effect with no returned data. -/
def lineplot (df : List (String × List ℚ)) (x y : String) :
    Except String Unit :=
  if (df.lookup x).isSome then
    if (df.lookup y).isSome then Except.ok () else Except.error y
  else Except.error x

/-- The default `stats_list` argument of `plot_performance`. -/
def default_stats_list : List String :=
  ["precision", "recall", "accuracy", "f1", "mean_true_score",
   "mean_matched_score", "panoptic_quality"]

/-- `plot_performance(taus, stats, name, metric, stats_list)`: one
`sns.lineplot` call per statistic of `stats_list` (left panel) and per
count in `fp, tp, fn` (right panel), each against the `thresh` column of
the converted records.  The `taus` parameter is unused by the body. -/
def plot_performance (taus : List ℚ) (stats : List MatchingStats)
    (stats_list : List String) : Except String Unit := do
  let df := dataset_matching_stats_to_df stats
  stats_list.forM (fun m => lineplot df "thresh" m)
  (["fp", "tp", "fn"] : List String).forM (fun m => lineplot df "thresh" m)

/-- Counterexample to claim C7: `plot_performance` completes without
raising even when the threshold sequence it is given is empty (its
`taus` argument is never used), while the sweep evaluator does fail on an
empty threshold sequence — so not every rendering function fails on an
empty threshold sequence. -/
theorem rendering_empty_thresholds_counterexample :
    plot_performance [] [⟨0, 0, 0, 0, 0, 0, 0, 0, 0, 0, 0⟩]
        default_stats_list = Except.ok () ∧
    plot_model_performance_semantic [[1]] [[1]] [] = none := by
  exact ⟨rfl, rfl⟩

/-- Claim C7, amended: rendering functions complete without raising on a
well-formed record collection; the metric sweep evaluator fails exactly on
an empty threshold sequence, while `plot_performance` ignores its
threshold argument and completes even when that argument is empty. -/
theorem rendering_failure_modes (image gt : PixelMap) (ts taus : List ℚ)
    (stats : List MatchingStats) :
    plot_performance taus stats default_stats_list = Except.ok () ∧
    (ts = [] → plot_model_performance_semantic image gt ts = none) ∧
    (ts ≠ [] → (plot_model_performance_semantic image gt ts).isSome) := by
  refine ⟨rfl, ?_, ?_⟩
  · intro h
    subst h
    rfl
  · intro h
    have hne : ts.map (fun t => dice_coeff gt (npWhereGt image t)) ≠ [] := by
      intro hc
      exact h (List.map_eq_nil_iff.mp hc)
    obtain ⟨k, hk, -⟩ :=
      npArgmax_spec (ts.map (fun t => dice_coeff gt (npWhereGt image t))) hne
    simp only [plot_model_performance_semantic, hk]
    rfl

/-- Witness for the amended C7, with both an empty and a nonempty
threshold sequence. -/
theorem rendering_failure_modes_witness :
    plot_performance [] [⟨1, 1, 1, 1, 1, 1, 1, 1, 1, 1, 1⟩]
        default_stats_list = Except.ok () ∧
    plot_model_performance_semantic [[1]] [[1]] [] = none ∧
    (plot_model_performance_semantic [[1]] [[1]] [0]).isSome :=
  ⟨(rendering_failure_modes [[1]] [[1]] [] []
      [⟨1, 1, 1, 1, 1, 1, 1, 1, 1, 1, 1⟩]).1,
    (rendering_failure_modes [[1]] [[1]] [] [] []).2.1 rfl,
    (rendering_failure_modes [[1]] [[1]] [0] [] []).2.2 (by simp)⟩

/-! ## Perfect prediction at threshold 0 (claim C8) -/

theorem npWhereGt_binary (image : PixelMap) (t : ℚ) :
    ∀ row ∈ npWhereGt image t, ∀ x ∈ row, x = 0 ∨ x = 1 := by
  intro row hrow x hx
  simp only [npWhereGt, List.mem_map] at hrow
  obtain ⟨r0, -, hr0⟩ := hrow
  rw [← hr0] at hx
  simp only [List.mem_map] at hx
  obtain ⟨y, -, hy⟩ := hx
  by_cases hc : t < y
  · right; rw [← hy, if_pos hc]
  · left; rw [← hy, if_neg hc]

theorem arrayMul_self_binary (a : PixelMap)
    (h : ∀ row ∈ a, ∀ x ∈ row, x = 0 ∨ x = 1) : arrayMul a a = a := by
  rw [arrayMul, List.zipWith_same]
  have hrow : ∀ row ∈ a, List.zipWith (· * ·) row row = row := by
    intro row hrow
    rw [List.zipWith_same]
    have : ∀ x ∈ row, x * x = x := by
      intro x hx
      rcases h row hrow x hx with h0 | h1
      · rw [h0]; ring
      · rw [h1]; ring
    calc row.map (fun x => x * x) = row.map id := List.map_congr_left this
    _ = row := List.map_id row
  calc a.map (fun row => List.zipWith (· * ·) row row)
      = a.map id := List.map_congr_left hrow
  _ = a := List.map_id a

theorem arraySum_pos_of_binary (a : PixelMap)
    (hbin : ∀ row ∈ a, ∀ x ∈ row, x = 0 ∨ x = 1)
    (hnz : ∃ row ∈ a, ∃ x ∈ row, x ≠ 0) : 0 < arraySum a := by
  obtain ⟨row, hrow, x, hx, hxne⟩ := hnz
  have hx1 : x = 1 := by
    rcases hbin row hrow x hx with h0 | h1
    · exact absurd h0 hxne
    · exact h1
  have hnonneg : ∀ y ∈ row, 0 ≤ y := by
    intro y hy
    rcases hbin row hrow y hy with h0 | h1
    · rw [h0]
    · rw [h1]; norm_num
  have hrowsum : (1 : ℚ) ≤ row.sum := by
    have := List.single_le_sum hnonneg x hx
    rw [hx1] at this
    exact this
  have houter : row.sum ≤ arraySum a := by
    have hmem : row.sum ∈ a.map List.sum := List.mem_map_of_mem List.sum hrow
    have hnn : ∀ z ∈ a.map List.sum, 0 ≤ z := by
      intro z hz
      simp only [List.mem_map] at hz
      obtain ⟨r0, hr0, hzr⟩ := hz
      rw [← hzr]
      refine List.sum_nonneg ?_
      intro y hy
      rcases hbin r0 hr0 y hy with h0 | h1
      · rw [h0]
      · rw [h1]; norm_num
    exact List.single_le_sum hnn row.sum hmem
  calc (0 : ℚ) < 1 := one_pos
  _ ≤ row.sum := hrowsum
  _ ≤ arraySum a := houter

/-- Counterexample to claim C8: the all-zero prediction map equals its own
binarization by `value > 0`, so it satisfies the hypotheses of the claim,
but at threshold 0 the Dice coefficient is `0/0` — a NaN in the numeric
library (rational division by zero yields 0 here) — and in particular not
1.0. -/
theorem perfect_prediction_counterexample :
    ([[0]] : PixelMap) = npWhereGt [[0]] 0 ∧
    dice_coeff [[0]] (npWhereGt [[0]] 0) ≠ 1 := by
  constructor
  · norm_num [npWhereGt]
  · norm_num [dice_coeff, arrayMul, arraySum, npWhereGt]

/-- Claim C8, amended: for every prediction map equal to the ground truth
exactly, where the ground truth is a binary map equal to the prediction
binarized by `value > 0` and has at least one nonzero pixel, the Dice,
IoU, precision and recall computed by the sweep evaluator at threshold 0
all equal 1. -/
theorem perfect_prediction_metrics (image : PixelMap)
    (hgt : image = npWhereGt image 0)
    (hnz : ∃ row ∈ image, ∃ x ∈ row, x ≠ 0) :
    dice_coeff image (npWhereGt image 0) = 1 ∧
    intersection_over_union image (npWhereGt image 0) = 1 ∧
    precision image (npWhereGt image 0) = 1 ∧
    «recall» image (npWhereGt image 0) = 1 := by
  have hbin : ∀ row ∈ image, ∀ x ∈ row, x = 0 ∨ x = 1 := by
    rw [hgt]
    exact npWhereGt_binary image 0
  have hmul : arrayMul image (npWhereGt image 0) = image := by
    rw [← hgt]
    exact arrayMul_self_binary image hbin
  have hs : 0 < arraySum image := arraySum_pos_of_binary image hbin hnz
  have hsum : arraySum (npWhereGt image 0) = arraySum image := by rw [← hgt]
  refine ⟨?_, ?_, ?_, ?_⟩
  · rw [dice_coeff, hmul, hsum]
    rw [div_eq_one_iff_eq (by linarith)]
    ring
  · rw [intersection_over_union, hmul, hsum]
    rw [div_eq_one_iff_eq (by linarith)]
    ring
  · rw [precision, hmul, hsum]
    exact div_self (by linarith)
  · rw [«recall», hmul]
    exact div_self (by linarith)

/-- Witness for the amended C8 at the one-pixel map `[[1]]`. -/
theorem perfect_prediction_metrics_witness :
    dice_coeff [[1]] (npWhereGt [[1]] 0) = 1 ∧
    intersection_over_union [[1]] (npWhereGt [[1]] 0) = 1 ∧
    precision [[1]] (npWhereGt [[1]] 0) = 1 ∧
    «recall» [[1]] (npWhereGt [[1]] 0) = 1 :=
  perfect_prediction_metrics [[1]] (by norm_num [npWhereGt]) (by norm_num)

end Cellseg3d
